import Mathlib

set_option linter.unusedSectionVars false

/-
  Verification of the open-addressing hash table in src/src/main.rs.

  The Rust code is shallowly embedded: `HashCell` and `HashTable` mirror the
  Rust structs, the probe loops of `get_index` and `insert` become fuel-bounded
  recursions (fuel = number of slots, which is exactly the number of distinct
  indices a linear probe can visit before repeating), and `usize` arithmetic
  becomes `Nat` with explicit `% 2 ^ 64` where Rust wraps.
-/

namespace RHash

/-- Mirrors the Rust trait `Hashable`: a deterministic digest into `Nat`
(the embedding of `usize`). -/
class Hashable (A : Type) where
  hash : A → Nat

/-- Word size modulus of `usize` (64-bit platform): `2 ^ 64`. -/
def W : Nat := 2 ^ 64

/-- One step of the djb2 loop, exactly as the source writes it:
`hash = (hash << 5).wrapping_add(hash).wrapping_add(c)`, where every
`wrapping_add` and the shift reduce modulo `2 ^ 64`. -/
def djb2Step (h c : Nat) : Nat := (((h <<< 5) % W + h) % W + c) % W

/-- Mirrors `impl Hashable for String`: the djb2 digest of the byte sequence
of the string (a Rust `String` is embedded as its list of bytes), starting
from the seed 5381. -/
def djb2 (bytes : List Nat) : Nat := bytes.foldl djb2Step 5381

instance hashableBytes : Hashable (List Nat) := ⟨djb2⟩

/-- Mirrors `impl Hashable for usize`: the identity digest. -/
instance hashableNat : Hashable Nat := ⟨fun a => a⟩

/-- Mirrors the Rust struct `HashCell { key, value, taken }`. -/
structure HashCell (K V : Type) where
  key : K
  value : V
  taken : Bool

/-- Default cell, as produced by `#[derive(Default)]`: default key and value,
`taken = false`. -/
instance instInhabitedHashCell {K V : Type} [Inhabited K] [Inhabited V] :
    Inhabited (HashCell K V) := ⟨⟨default, default, false⟩⟩

/-- Mirrors the Rust struct `HashTable { cells, taken_count }`. -/
structure HashTable (K V : Type) where
  cells : List (HashCell K V)
  taken_count : Nat

variable {K V : Type} [Inhabited K] [Inhabited V] [DecidableEq K] [Hashable K]

/-- Digest of a key, `key.hash()` in the source. -/
def hashOf (k : K) : Nat := Hashable.hash k

/-- Cell of the backing store at index `i`; every index the source ever uses
is in bounds (it is always reduced modulo the length), so the default cell
returned out of bounds is never observed. -/
def cellAt (cs : List (HashCell K V)) (i : Nat) : HashCell K V := cs.getD i default

/-- Occupancy flag of slot `i`. -/
abbrev taken_at (cs : List (HashCell K V)) (i : Nat) : Bool := (cellAt cs i).taken

/-- Key stored at slot `i`. -/
abbrev keyAt (cs : List (HashCell K V)) (i : Nat) : K := (cellAt cs i).key

/-- Value stored at slot `i`. -/
abbrev valueAt (cs : List (HashCell K V)) (i : Nat) : V := (cellAt cs i).value

/-- Starting probe index of a key: `key.hash() % self.cells.len()`. -/
abbrev home (cs : List (HashCell K V)) (k : K) : Nat := hashOf k % cs.length

/-- Mirrors `HashTable::with_capacity`: `capacity` default cells, count 0. -/
def with_capacity (capacity : Nat) : HashTable K V :=
  ⟨List.replicate capacity default, 0⟩

/-- Mirrors `HashTable::new`: default capacity 61. -/
def hnew : HashTable K V := with_capacity 61

/-- Probe loop of `get_index`: `for _ in 0..self.cells.len()` starting at
`idx`, stopping with `none` at the first unoccupied slot, with `some idx` at
the first slot holding an equal key, and with `none` after a full cycle.
The fuel argument is the loop counter of the source `for` loop. -/
def get_index_loop (cs : List (HashCell K V)) (k : K) : Nat → Nat → Option Nat
  | _, 0 => none
  | idx, fuel + 1 =>
    if (cellAt cs idx).taken = false then none
    else if (cellAt cs idx).key = k then some idx
    else get_index_loop cs k ((idx + 1) % cs.length) fuel

/-- Mirrors `HashTable::get_index`. -/
def get_index (t : HashTable K V) (k : K) : Option Nat :=
  get_index_loop t.cells k (hashOf k % t.cells.length) t.cells.length

/-- Mirrors `HashTable::get`: the value at the resolved index, if any. -/
def get (t : HashTable K V) (k : K) : Option V :=
  (get_index t k).map (fun i => (cellAt t.cells i).value)

/-- Mirrors `HashTable::get_mut`: it resolves the same index as `get` and
returns the same value; mutation through the returned reference is modelled
separately (see `Reachable.mutval`). -/
def get_mut (t : HashTable K V) (k : K) : Option V :=
  (get_index t k).map (fun i => (cellAt t.cells i).value)

/-- Probe loop of `insert`: `while self.cells[idx].taken { idx = (idx + 1) %
self.cells.len() }`. The source loop is unbounded; with fuel equal to the
number of slots the probe visits every index once, so this returns the index
the source loop stops at whenever the source loop terminates, and `none`
exactly when every slot is occupied and the source loop would run forever. -/
def probeFree (cs : List (HashCell K V)) : Nat → Nat → Option Nat
  | _, 0 => none
  | idx, fuel + 1 =>
    if (cellAt cs idx).taken then probeFree cs ((idx + 1) % cs.length) fuel
    else some idx

/-- Overwrite in place of the value at slot `i`, the effect of
`*old_val = new_value` through `get_mut` in `insert`: key and occupancy of
the slot are untouched. -/
def setValue (t : HashTable K V) (i : Nat) (v : V) : HashTable K V :=
  ⟨t.cells.set i ⟨(cellAt t.cells i).key, v, (cellAt t.cells i).taken⟩, t.taken_count⟩

/-- Write of a fresh pair into slot `i` followed by the count increment, the
last four statements of `insert`. -/
def writeNew (t : HashTable K V) (i : Nat) (k : K) (v : V) : HashTable K V :=
  ⟨t.cells.set i ⟨k, v, true⟩, t.taken_count + 1⟩

/-- Body of `insert` without the growth branch: upsert if the key resolves,
otherwise write into the first free slot of the probe sequence. The source
`extend` calls the full `insert`, but at every such call the new store is
never full, so the growth branch cannot fire there; `insert_eq_core` below
proves the two agree whenever the table is not full, and the claim C3
theorem proves `extend` equals the fold of the full `insert`. -/
def insert_core (t : HashTable K V) (k : K) (v : V) : HashTable K V :=
  match get_index t k with
  | some i => setValue t i v
  | none =>
    match probeFree t.cells (home t.cells k) t.cells.length with
    | some i => writeNew t i k v
    | none => t

/-- Reinsertion loop of `extend`: fold `insert_core` over the occupied slots
of the old store, in slot order. -/
def growFold (cs : List (HashCell K V)) (acc : HashTable K V) : HashTable K V :=
  cs.foldl (fun a c => if c.taken then insert_core a c.key c.value else a) acc

/-- Mirrors `HashTable::extend`: a fresh store of capacity
`self.cells.len() * 2 + 1`, count 0, into which every occupied slot of the
old store is inserted in slot order. The two entry assertions of the source
(`taken_count == cells.len()` and `cells.len() != 0`) hold at its only call
site inside `insert` and are not part of the state transformation. -/
def extend (t : HashTable K V) : HashTable K V :=
  growFold t.cells (with_capacity (t.cells.length * 2 + 1))

/-- Mirrors `HashTable::insert`, with `none` marking the one behaviour the
source cannot produce a value for: the unbounded probe loop running forever
because every slot is occupied even after the growth check. -/
def insert? (t : HashTable K V) (k : K) (v : V) : Option (HashTable K V) :=
  match get_index t k with
  | some i => some (setValue t i v)
  | none =>
    let t1 := if t.taken_count = t.cells.length then extend t else t
    match probeFree t1.cells (home t1.cells k) t1.cells.length with
    | some i => some (writeNew t1 i k v)
    | none => none

/-- Total wrapper of `insert?`; the `none` case is unreachable from any
well-formed table (claim C9). -/
def insert (t : HashTable K V) (k : K) (v : V) : HashTable K V :=
  (insert? t k v).getD t

/-- Sequence of inserts, first pair first. -/
def insertList (t : HashTable K V) (ps : List (K × V)) : HashTable K V :=
  ps.foldl (fun acc p => insert acc p.1 p.2) t

/-- Variant of the reinsertion loop written with the full `insert`, exactly
as the source `extend` calls it; proved equal to `growFold` along every run
of `extend` (the new store is never full, so the growth branch of `insert`
cannot fire there). -/
def growFoldIns (cs : List (HashCell K V)) (acc : HashTable K V) : HashTable K V :=
  cs.foldl (fun a c => if c.taken then insert a c.key c.value else a) acc

/-- Entry behaviour of `insert` including the Rust arithmetic fault: the very
first statement of `insert` calls `get_mut`, hence `get_index`, whose first
line computes `key.hash() % self.cells.len()`; when the capacity is zero this
remainder by zero makes the program abort at once (Rust panics on remainder
by zero), before any probe loop is entered. `Except.error ()` models that
abort. -/
def insertChecked (t : HashTable K V) (k : K) (v : V) :
    Except Unit (HashTable K V) :=
  if t.cells.length = 0 then Except.error () else Except.ok (insert t k v)

/-- Forward probe distance from index `s` to index `i` in a cyclic array of
`n` slots. -/
def probeDist (s i n : Nat) : Nat := (i + n - s) % n

/-- Number of occupied slots of a store. -/
def countTaken (cs : List (HashCell K V)) : Nat := cs.countP (fun c => c.taken)

/-- No two distinct occupied slots hold the same key. -/
def nodupKeys (cs : List (HashCell K V)) : Prop :=
  ∀ i, i < cs.length → ∀ j, j < cs.length →
    taken_at cs i = true → taken_at cs j = true → keyAt cs i = keyAt cs j → i = j

/-- Probe path invariant: every slot strictly between the home index of an
occupied slot and that slot (along the forward probe order) is occupied.
This is what makes the early `break` of `get_index` sound. -/
def pathOk (cs : List (HashCell K V)) : Prop :=
  ∀ i, i < cs.length → taken_at cs i = true →
    ∀ j, j < probeDist (home cs (keyAt cs i)) i cs.length →
      taken_at cs ((home cs (keyAt cs i) + j) % cs.length) = true

/-- Well-formedness of a table: positive capacity, accurate count, no
duplicate keys, and unbroken probe paths. Every table reachable through the
public operations satisfies it. -/
def wf (t : HashTable K V) : Prop :=
  0 < t.cells.length ∧ t.taken_count = countTaken t.cells ∧
    nodupKeys t.cells ∧ pathOk t.cells

instance instDecNodupKeys (cs : List (HashCell K V)) : Decidable (nodupKeys cs) := by
  unfold nodupKeys; infer_instance

instance instDecPathOk (cs : List (HashCell K V)) : Decidable (pathOk cs) := by
  unfold pathOk; infer_instance

instance instDecWf (t : HashTable K V) : Decidable (wf t) := by
  unfold wf; infer_instance

/-- Tables reachable through the public interface: `new`, `with_capacity`
with positive capacity, `insert`, and in-place value mutation through a
reference obtained from `get_mut` (`get` mutates nothing). -/
inductive Reachable : HashTable K V → Prop where
  | mk_new : Reachable hnew
  | mk_cap : ∀ n, 0 < n → Reachable (with_capacity n)
  | ins : ∀ t k v, Reachable t → Reachable (insert t k v)
  | mutval : ∀ t k v i, Reachable t → get_index t k = some i →
      Reachable (setValue t i v)

/-- First occupied cell of a store holding the given key, by slot order. -/
def assocTaken (cs : List (HashCell K V)) (k : K) : Option V :=
  (cs.find? (fun c => c.taken && decide (c.key = k))).map (fun c => c.value)

/-- Left-biased choice on optional values. -/
def orO (a b : Option V) : Option V :=
  match a with
  | some v => some v
  | none => b

/-! Basic facts about cell access, occupancy counting and probe distances. -/

lemma cellAt_cons_succ (a : HashCell K V) (tl : List (HashCell K V)) (i : Nat) :
    cellAt (a :: tl) (i + 1) = cellAt tl i := rfl

lemma cellAt_set_self (cs : List (HashCell K V)) (i : Nat) (c : HashCell K V)
    (h : i < cs.length) : cellAt (cs.set i c) i = c := by
  induction cs generalizing i with
  | nil => simp at h
  | cons a tl ih =>
    cases i with
    | zero => rfl
    | succ i =>
      have : i < tl.length := by simpa using h
      simpa [List.set, cellAt_cons_succ] using ih i this

lemma cellAt_set_ne (cs : List (HashCell K V)) (i j : Nat) (c : HashCell K V)
    (h : j ≠ i) : cellAt (cs.set i c) j = cellAt cs j := by
  induction cs generalizing i j with
  | nil => rfl
  | cons a tl ih =>
    cases i with
    | zero =>
      cases j with
      | zero => exact absurd rfl h
      | succ j => rfl
    | succ i =>
      cases j with
      | zero => rfl
      | succ j =>
        have : j ≠ i := fun he => h (by rw [he])
        simpa [List.set, cellAt_cons_succ] using ih i j this

lemma cellAt_replicate (m i : Nat) :
    cellAt (List.replicate m (default : HashCell K V)) i = default := by
  induction m generalizing i with
  | zero => rfl
  | succ m ih =>
    cases i with
    | zero => rfl
    | succ i => simpa [List.replicate, cellAt_cons_succ] using ih i

lemma countTaken_cons (a : HashCell K V) (tl : List (HashCell K V)) :
    countTaken (a :: tl) = countTaken tl + (if a.taken then 1 else 0) := by
  simp [countTaken, List.countP_cons]

lemma countTaken_le (cs : List (HashCell K V)) : countTaken cs ≤ cs.length := by
  unfold countTaken
  exact List.countP_le_length _

lemma countTaken_replicate (m : Nat) :
    countTaken (List.replicate m (default : HashCell K V)) = 0 := by
  induction m with
  | zero => rfl
  | succ m ih => simpa [List.replicate, countTaken_cons] using ih

lemma countTaken_set (cs : List (HashCell K V)) (i : Nat) (c : HashCell K V)
    (h : i < cs.length) :
    countTaken (cs.set i c) + (if (cellAt cs i).taken then 1 else 0) =
      countTaken cs + (if c.taken then 1 else 0) := by
  induction cs generalizing i with
  | nil => simp at h
  | cons a tl ih =>
    cases i with
    | zero =>
      show countTaken (c :: tl) + _ = countTaken (a :: tl) + _
      rw [countTaken_cons, countTaken_cons]
      have : cellAt (a :: tl) 0 = a := rfl
      rw [this]
      omega
    | succ i =>
      have hlt : i < tl.length := by simpa using h
      show countTaken (a :: tl.set i c) + _ = countTaken (a :: tl) + _
      rw [countTaken_cons, countTaken_cons, cellAt_cons_succ]
      have := ih i hlt
      omega

lemma countTaken_set_new (cs : List (HashCell K V)) (i : Nat) (c : HashCell K V)
    (h : i < cs.length) (hu : (cellAt cs i).taken = false) (hc : c.taken = true) :
    countTaken (cs.set i c) = countTaken cs + 1 := by
  have := countTaken_set cs i c h
  rw [hu, hc] at this
  simpa using this

lemma countTaken_set_same (cs : List (HashCell K V)) (i : Nat) (c : HashCell K V)
    (h : i < cs.length) (hs : c.taken = (cellAt cs i).taken) :
    countTaken (cs.set i c) = countTaken cs := by
  have := countTaken_set cs i c h
  rw [hs] at this
  omega

lemma exists_untaken (cs : List (HashCell K V)) (h : countTaken cs < cs.length) :
    ∃ i, i < cs.length ∧ taken_at cs i = false := by
  induction cs with
  | nil => simp [countTaken] at h
  | cons a tl ih =>
    rw [countTaken_cons] at h
    by_cases ha : a.taken = true
    · have : countTaken tl < tl.length := by
        simp only [ha, if_pos, List.length_cons] at h
        omega
      obtain ⟨i, hi, hf⟩ := ih this
      exact ⟨i + 1, by simpa using hi, by simpa [taken_at, cellAt_cons_succ] using hf⟩
    · refine ⟨0, by simp, ?_⟩
      show (cellAt (a :: tl) 0).taken = false
      have : cellAt (a :: tl) 0 = a := rfl
      rw [this]
      simpa using ha

lemma probeDist_lt {n : Nat} (h : 0 < n) (s i : Nat) : probeDist s i n < n :=
  Nat.mod_lt _ h

lemma add_probeDist {s i n : Nat} (hs : s < n) (hi : i < n) :
    (s + probeDist s i n) % n = i := by
  unfold probeDist
  rw [Nat.add_mod_mod]
  have h1 : s ≤ i + n := by omega
  have h2 : s + (i + n - s) = i + n := by omega
  rw [h2, Nat.add_mod_right, Nat.mod_eq_of_lt hi]

lemma probeDist_add {s D n : Nat} (hs : s < n) (hD : D < n) :
    probeDist s ((s + D) % n) n = D := by
  unfold probeDist
  by_cases h : s + D < n
  · rw [Nat.mod_eq_of_lt h]
    have h2 : s + D + n - s = D + n := by omega
    rw [h2, Nat.add_mod_right, Nat.mod_eq_of_lt hD]
  · have hge : n ≤ s + D := by omega
    have hlt2 : s + D - n < n := by omega
    rw [Nat.mod_eq_sub_mod hge, Nat.mod_eq_of_lt hlt2]
    have h2 : s + D - n + n - s = D := by omega
    rw [h2, Nat.mod_eq_of_lt hD]

lemma mod_step {s n : Nat} (j : Nat) :
    ((s + 1) % n + j) % n = (s + (j + 1)) % n := by
  rw [Nat.mod_add_mod]
  congr 1
  omega

lemma not_false_of_true {b : Bool} (h : b = true) : ¬(b = false) := by
  simp [h]

lemma bool_eq_false {b : Bool} (h : ¬(b = true)) : b = false := by
  cases b
  · rfl
  · exact absurd rfl h

/-! Soundness and completeness of the two probe loops. -/

lemma get_index_loop_some (cs : List (HashCell K V)) (k : K) :
    ∀ fuel idx i, idx < cs.length → get_index_loop cs k idx fuel = some i →
      i < cs.length ∧ taken_at cs i = true ∧ keyAt cs i = k := by
  intro fuel
  induction fuel with
  | zero => intro idx i _ h; simp [get_index_loop] at h
  | succ fuel ih =>
    intro idx i hidx h
    rw [get_index_loop] at h
    by_cases ht : (cellAt cs idx).taken = false
    · rw [if_pos ht] at h; simp at h
    · rw [if_neg ht] at h
      by_cases hk : (cellAt cs idx).key = k
      · rw [if_pos hk] at h
        injection h with h
        subst h
        refine ⟨hidx, ?_, hk⟩
        cases hb : (cellAt cs idx).taken
        · exact absurd hb ht
        · exact hb
      · rw [if_neg hk] at h
        have hn : 0 < cs.length := by omega
        exact ih ((idx + 1) % cs.length) i (Nat.mod_lt _ hn) h

lemma get_index_some (t : HashTable K V) (k : K) (i : Nat)
    (h : get_index t k = some i) :
    0 < t.cells.length ∧ i < t.cells.length ∧
      taken_at t.cells i = true ∧ keyAt t.cells i = k := by
  unfold get_index at h
  rcases Nat.eq_zero_or_pos t.cells.length with h0 | h0
  · rw [h0] at h
    simp [get_index_loop] at h
  · have hs : hashOf k % t.cells.length < t.cells.length := Nat.mod_lt _ h0
    obtain ⟨h1, h2, h3⟩ := get_index_loop_some t.cells k t.cells.length _ i hs h
    exact ⟨h0, h1, h2, h3⟩

lemma get_index_loop_finds (cs : List (HashCell K V)) (k : K)
    (hn : 0 < cs.length) :
    ∀ D fuel s, s < cs.length → D < fuel →
      (∀ j, j < D → taken_at cs ((s + j) % cs.length) = true ∧
        ¬(keyAt cs ((s + j) % cs.length) = k)) →
      taken_at cs ((s + D) % cs.length) = true →
      keyAt cs ((s + D) % cs.length) = k →
      get_index_loop cs k s fuel = some ((s + D) % cs.length) := by
  intro D
  induction D with
  | zero =>
    intro fuel s hs hf _ ht hk
    obtain ⟨fuel, rfl⟩ : ∃ f, fuel = f + 1 := ⟨fuel - 1, by omega⟩
    have hs0 : (s + 0) % cs.length = s := by
      rw [Nat.add_zero, Nat.mod_eq_of_lt hs]
    rw [hs0] at ht hk ⊢
    rw [get_index_loop, if_neg (not_false_of_true ht), if_pos hk]
  | succ D ih =>
    intro fuel s hs hf hpre ht hk
    obtain ⟨fuel, rfl⟩ : ∃ f, fuel = f + 1 := ⟨fuel - 1, by omega⟩
    have h0 := hpre 0 (Nat.succ_pos D)
    have hs0 : (s + 0) % cs.length = s := by
      rw [Nat.add_zero, Nat.mod_eq_of_lt hs]
    rw [hs0] at h0
    rw [get_index_loop, if_neg (not_false_of_true h0.1), if_neg h0.2]
    have hrec := ih fuel ((s + 1) % cs.length) (Nat.mod_lt _ hn) (by omega)
      (fun j hj => by rw [mod_step]; exact hpre (j + 1) (by omega))
      (by rw [mod_step]; exact ht)
      (by rw [mod_step]; exact hk)
    rw [mod_step] at hrec
    exact hrec

lemma get_index_loop_empty (cs : List (HashCell K V)) (k : K)
    (hn : 0 < cs.length) :
    ∀ D fuel s, s < cs.length → D < fuel →
      (∀ j, j < D → taken_at cs ((s + j) % cs.length) = true ∧
        ¬(keyAt cs ((s + j) % cs.length) = k)) →
      taken_at cs ((s + D) % cs.length) = false →
      get_index_loop cs k s fuel = none := by
  intro D
  induction D with
  | zero =>
    intro fuel s hs hf _ hu
    obtain ⟨fuel, rfl⟩ : ∃ f, fuel = f + 1 := ⟨fuel - 1, by omega⟩
    have hs0 : (s + 0) % cs.length = s := by
      rw [Nat.add_zero, Nat.mod_eq_of_lt hs]
    rw [hs0] at hu
    rw [get_index_loop, if_pos hu]
  | succ D ih =>
    intro fuel s hs hf hpre hu
    obtain ⟨fuel, rfl⟩ : ∃ f, fuel = f + 1 := ⟨fuel - 1, by omega⟩
    have h0 := hpre 0 (Nat.succ_pos D)
    have hs0 : (s + 0) % cs.length = s := by
      rw [Nat.add_zero, Nat.mod_eq_of_lt hs]
    rw [hs0] at h0
    rw [get_index_loop, if_neg (not_false_of_true h0.1), if_neg h0.2]
    exact ih fuel ((s + 1) % cs.length) (Nat.mod_lt _ hn) (by omega)
      (fun j hj => by rw [mod_step]; exact hpre (j + 1) (by omega))
      (by rw [mod_step]; exact hu)

lemma get_index_loop_full (cs : List (HashCell K V)) (k : K)
    (h1 : ∀ i, i < cs.length → taken_at cs i = true)
    (h2 : ∀ i, i < cs.length → ¬(keyAt cs i = k)) :
    ∀ fuel s, s < cs.length → get_index_loop cs k s fuel = none := by
  intro fuel
  induction fuel with
  | zero => intro s _; rfl
  | succ fuel ih =>
    intro s hs
    rw [get_index_loop, if_neg (not_false_of_true (h1 s hs)), if_neg (h2 s hs)]
    exact ih _ (Nat.mod_lt _ (by omega))

lemma get_index_none_of_absent (t : HashTable K V) (k : K)
    (habs : ∀ i, i < t.cells.length →
      ¬(taken_at t.cells i = true ∧ keyAt t.cells i = k)) :
    get_index t k = none := by
  cases h : get_index t k with
  | none => rfl
  | some i =>
    obtain ⟨_, hi, ht, hk⟩ := get_index_some t k i h
    exact absurd ⟨ht, hk⟩ (habs i hi)

lemma probeFree_some (cs : List (HashCell K V)) (hn : 0 < cs.length) :
    ∀ fuel s i, s < cs.length → probeFree cs s fuel = some i →
      ∃ D, D < fuel ∧ i = (s + D) % cs.length ∧ taken_at cs i = false ∧
        ∀ j, j < D → taken_at cs ((s + j) % cs.length) = true := by
  intro fuel
  induction fuel with
  | zero => intro s i _ h; simp [probeFree] at h
  | succ fuel ih =>
    intro s i hs h
    rw [probeFree] at h
    by_cases ht : (cellAt cs s).taken = true
    · rw [if_pos ht] at h
      obtain ⟨D, hD, hi, hu, hall⟩ := ih ((s + 1) % cs.length) i (Nat.mod_lt _ hn) h
      refine ⟨D + 1, by omega, ?_, hu, ?_⟩
      · rw [hi, mod_step]
      · intro j hj
        cases j with
        | zero =>
          have hs0 : (s + 0) % cs.length = s := by
            rw [Nat.add_zero, Nat.mod_eq_of_lt hs]
          rw [hs0]
          exact ht
        | succ j =>
          rw [← mod_step]
          exact hall j (by omega)
    · rw [if_neg ht] at h
      injection h with h
      subst h
      refine ⟨0, by omega, ?_, bool_eq_false ht, fun j hj => by omega⟩
      rw [Nat.add_zero, Nat.mod_eq_of_lt hs]

lemma probeFree_complete (cs : List (HashCell K V)) (hn : 0 < cs.length) :
    ∀ fuel s, s < cs.length →
      (∃ D, D < fuel ∧ taken_at cs ((s + D) % cs.length) = false) →
      (probeFree cs s fuel).isSome = true := by
  intro fuel
  induction fuel with
  | zero =>
    rintro s hs ⟨D, hD, _⟩
    omega
  | succ fuel ih =>
    rintro s hs ⟨D, hD, hu⟩
    rw [probeFree]
    by_cases ht : (cellAt cs s).taken = true
    · rw [if_pos ht]
      apply ih ((s + 1) % cs.length) (Nat.mod_lt _ hn)
      cases D with
      | zero =>
        exfalso
        have hs0 : (s + 0) % cs.length = s := by
          rw [Nat.add_zero, Nat.mod_eq_of_lt hs]
        rw [hs0] at hu
        have hu2 : (cellAt cs s).taken = false := hu
        rw [ht] at hu2
        exact Bool.noConfusion hu2
      | succ D =>
        exact ⟨D, by omega, by rw [mod_step]; exact hu⟩
    · rw [if_neg ht]
      rfl

/-! Pointwise effect of writing one slot. -/

lemma taken_at_set_self (cs : List (HashCell K V)) (i : Nat) (c : HashCell K V)
    (hi : i < cs.length) : taken_at (cs.set i c) i = c.taken := by
  show (cellAt _ _).taken = _
  rw [cellAt_set_self cs i c hi]

lemma taken_at_set_ne (cs : List (HashCell K V)) (i j : Nat) (c : HashCell K V)
    (hj : j ≠ i) : taken_at (cs.set i c) j = taken_at cs j := by
  show (cellAt _ _).taken = _
  rw [cellAt_set_ne cs i j c hj]

lemma keyAt_set_self (cs : List (HashCell K V)) (i : Nat) (c : HashCell K V)
    (hi : i < cs.length) : keyAt (cs.set i c) i = c.key := by
  show (cellAt _ _).key = _
  rw [cellAt_set_self cs i c hi]

lemma keyAt_set_ne (cs : List (HashCell K V)) (i j : Nat) (c : HashCell K V)
    (hj : j ≠ i) : keyAt (cs.set i c) j = keyAt cs j := by
  show (cellAt _ _).key = _
  rw [cellAt_set_ne cs i j c hj]

lemma valueAt_set_self (cs : List (HashCell K V)) (i : Nat) (c : HashCell K V)
    (hi : i < cs.length) : valueAt (cs.set i c) i = c.value := by
  show (cellAt _ _).value = _
  rw [cellAt_set_self cs i c hi]

lemma valueAt_set_ne (cs : List (HashCell K V)) (i j : Nat) (c : HashCell K V)
    (hj : j ≠ i) : valueAt (cs.set i c) j = valueAt cs j := by
  show (cellAt _ _).value = _
  rw [cellAt_set_ne cs i j c hj]

lemma home_set (cs : List (HashCell K V)) (i : Nat) (c : HashCell K V) (k : K) :
    home (cs.set i c) k = home cs k := by
  simp [home]

/-! Every key stored in a well-formed table is found by `get_index`. -/

lemma get_index_loop_finds_wf (cs : List (HashCell K V)) (k : K)
    (hpos : 0 < cs.length) (hnd : nodupKeys cs) (hpath : pathOk cs)
    (i : Nat) (hi : i < cs.length) (ht : taken_at cs i = true)
    (hk : keyAt cs i = k) :
    get_index_loop cs k (hashOf k % cs.length) cs.length = some i := by
  have hs : hashOf k % cs.length < cs.length := Nat.mod_lt _ hpos
  have hd := probeDist_lt hpos (hashOf k % cs.length) i
  have hpd := add_probeDist hs hi
  have hpathi := hpath i hi ht
  rw [hk] at hpathi
  have hpD : taken_at cs ((hashOf k % cs.length +
        probeDist (hashOf k % cs.length) i cs.length) % cs.length) = true ∧
      keyAt cs ((hashOf k % cs.length +
        probeDist (hashOf k % cs.length) i cs.length) % cs.length) = k := by
    rw [hpd]
    exact ⟨ht, hk⟩
  have hex : ∃ j, taken_at cs ((hashOf k % cs.length + j) % cs.length) = true ∧
      keyAt cs ((hashOf k % cs.length + j) % cs.length) = k := ⟨_, hpD⟩
  have hfind := Nat.find_spec hex
  have hle : Nat.find hex ≤ probeDist (hashOf k % cs.length) i cs.length :=
    Nat.find_min' hex hpD
  have hlt : Nat.find hex < cs.length := lt_of_le_of_lt hle hd
  have hloop := get_index_loop_finds cs k hpos (Nat.find hex) cs.length
    (hashOf k % cs.length) hs hlt
    (fun j hj =>
      ⟨hpathi j (lt_of_lt_of_le hj hle),
        fun hkey => Nat.find_min hex hj ⟨hpathi j (lt_of_lt_of_le hj hle), hkey⟩⟩)
    hfind.1 hfind.2
  have hi2 : (hashOf k % cs.length + Nat.find hex) % cs.length = i := by
    apply hnd _ (Nat.mod_lt _ hpos) i hi hfind.1 ht
    rw [hfind.2, hk]
  rw [hi2] at hloop
  exact hloop

lemma get_index_finds (t : HashTable K V) (k : K) (h : wf t)
    (i : Nat) (hi : i < t.cells.length) (ht : taken_at t.cells i = true)
    (hk : keyAt t.cells i = k) : get_index t k = some i := by
  obtain ⟨hpos, _, hnd, hpath⟩ := h
  unfold get_index
  exact get_index_loop_finds_wf t.cells k hpos hnd hpath i hi ht hk

lemma absent_of_none (t : HashTable K V) (k : K) (h : wf t)
    (hni : get_index t k = none) :
    ∀ i, i < t.cells.length →
      ¬(taken_at t.cells i = true ∧ keyAt t.cells i = k) := by
  intro i hi hc
  rw [get_index_finds t k h i hi hc.1 hc.2] at hni
  exact Option.noConfusion hni

lemma get_some_of_index (t : HashTable K V) (k : K) (i : Nat)
    (h : get_index t k = some i) : get t k = some (valueAt t.cells i) := by
  unfold get
  rw [h]
  rfl

lemma get_none_iff (t : HashTable K V) (k : K) :
    get t k = none ↔ get_index t k = none := by
  unfold get
  cases get_index t k <;> simp

/-! Relation between slot indexing and list membership. -/

lemma cellAt_eq_get (cs : List (HashCell K V)) (i : Nat) (hi : i < cs.length) :
    cellAt cs i = cs.get ⟨i, hi⟩ := by
  unfold cellAt
  rw [List.getD_eq_get?, List.get?_eq_get hi]
  rfl

lemma cellAt_mem (cs : List (HashCell K V)) (i : Nat) (hi : i < cs.length) :
    cellAt cs i ∈ cs := by
  rw [cellAt_eq_get cs i hi]
  exact List.get_mem cs i hi

lemma mem_index (cs : List (HashCell K V)) (c : HashCell K V) (hc : c ∈ cs) :
    ∃ i, i < cs.length ∧ cellAt cs i = c := by
  obtain ⟨⟨i, hi⟩, hgi⟩ := List.mem_iff_get.mp hc
  exact ⟨i, hi, (cellAt_eq_get cs i hi).trans hgi⟩

/-! Facts about the first occupied slot holding a key. -/

lemma assocTaken_some (cs : List (HashCell K V)) (k : K) (v : V)
    (h : assocTaken cs k = some v) :
    ∃ c, c ∈ cs ∧ c.taken = true ∧ c.key = k ∧ c.value = v := by
  unfold assocTaken at h
  cases hf : cs.find? (fun c => c.taken && decide (c.key = k)) with
  | none => rw [hf] at h; simp at h
  | some c =>
    rw [hf] at h
    have hp := List.find?_some hf
    simp at hp
    have hm := List.mem_of_find?_eq_some hf
    simp at h
    exact ⟨c, hm, hp.1, hp.2, h⟩

lemma assocTaken_none_of (cs : List (HashCell K V)) (k : K)
    (h : ∀ c, c ∈ cs → ¬(c.taken = true ∧ c.key = k)) :
    assocTaken cs k = none := by
  unfold assocTaken
  rw [List.find?_eq_none.mpr]
  · rfl
  · intro c hc hp
    simp at hp
    exact h c hc ⟨hp.1, hp.2⟩

lemma assocTaken_none_imp (cs : List (HashCell K V)) (k : K)
    (ha : assocTaken cs k = none) :
    ∀ c, c ∈ cs → ¬(c.taken = true ∧ c.key = k) := by
  unfold assocTaken at ha
  cases hf : cs.find? (fun c => c.taken && decide (c.key = k)) with
  | some c => rw [hf] at ha; simp at ha
  | none =>
    intro c hc hp
    have := List.find?_eq_none.mp hf c hc
    simp at this
    exact absurd hp.2 (this hp.1)

/-- Under well-formedness, `get` computes exactly the association map of the
occupied slots. -/
lemma get_eq_assoc (t : HashTable K V) (k : K) (h : wf t) :
    get t k = assocTaken t.cells k := by
  cases ha : assocTaken t.cells k with
  | some v =>
    obtain ⟨c, hm, ht, hk, hv⟩ := assocTaken_some _ _ _ ha
    obtain ⟨i, hi, hci⟩ := mem_index _ _ hm
    have hti : taken_at t.cells i = true := by
      show (cellAt t.cells i).taken = true
      rw [hci]
      exact ht
    have hki : keyAt t.cells i = k := by
      show (cellAt t.cells i).key = k
      rw [hci]
      exact hk
    rw [get_some_of_index t k i (get_index_finds t k h i hi hti hki)]
    show some (cellAt t.cells i).value = some v
    rw [hci, hv]
  | none =>
    rw [(get_none_iff t k).mpr]
    apply get_index_none_of_absent
    intro i hi hc
    exact assocTaken_none_imp _ _ ha (cellAt t.cells i) (cellAt_mem _ _ hi) hc

/-! Well-formedness of freshly constructed tables. -/

lemma taken_at_replicate (m i : Nat) :
    taken_at (List.replicate m (default : HashCell K V)) i = false := by
  show (cellAt _ i).taken = false
  rw [cellAt_replicate]
  rfl

lemma with_capacity_cells (m : Nat) :
    (with_capacity m : HashTable K V).cells = List.replicate m default := rfl

lemma wf_with_capacity (m : Nat) (h : 0 < m) :
    wf (with_capacity m : HashTable K V) := by
  refine ⟨by simpa [with_capacity] using h, ?_, ?_, ?_⟩
  · show (0 : Nat) = countTaken _
    rw [with_capacity_cells, countTaken_replicate]
  · intro i _ j _ ht _ _
    rw [with_capacity_cells, taken_at_replicate] at ht
    exact Bool.noConfusion ht
  · intro i _ ht
    rw [with_capacity_cells, taken_at_replicate] at ht
    exact Bool.noConfusion ht

lemma get_with_capacity (m : Nat) (k : K) :
    get (with_capacity m : HashTable K V) k = none := by
  rw [(get_none_iff _ k).mpr]
  apply get_index_none_of_absent
  intro i _ hc
  have := hc.1
  rw [with_capacity_cells, taken_at_replicate] at this
  exact Bool.noConfusion this

/-! Transfer of the invariants along a shape-preserving rewrite. -/

lemma shape_preserves (cs cs2 : List (HashCell K V))
    (hlen : cs2.length = cs.length)
    (hsame : ∀ j, taken_at cs2 j = taken_at cs j ∧ keyAt cs2 j = keyAt cs j) :
    (nodupKeys cs → nodupKeys cs2) ∧ (pathOk cs → pathOk cs2) := by
  constructor
  · intro hnd i hi j hj ht htj hk
    rw [hlen] at hi hj
    rw [(hsame i).1] at ht
    rw [(hsame j).1] at htj
    rw [(hsame i).2, (hsame j).2] at hk
    exact hnd i hi j hj ht htj hk
  · intro hp i hi ht j hj
    rw [hlen] at hi
    rw [(hsame i).1] at ht
    simp only [home] at hj ⊢
    rw [(hsame i).2, hlen] at hj
    have hres := hp i hi ht j hj
    simp only [home] at hres
    rw [(hsame i).2, hlen, (hsame _).1]
    exact hres

lemma setValue_shape (t : HashTable K V) (i : Nat) (v : V)
    (hi : i < t.cells.length) :
    (setValue t i v).cells.length = t.cells.length ∧
      ∀ j, taken_at (setValue t i v).cells j = taken_at t.cells j ∧
        keyAt (setValue t i v).cells j = keyAt t.cells j := by
  constructor
  · simp [setValue]
  · intro j
    show taken_at (t.cells.set i _) j = _ ∧ keyAt (t.cells.set i _) j = _
    by_cases hj : j = i
    · subst hj
      rw [taken_at_set_self _ _ _ hi, keyAt_set_self _ _ _ hi]
      exact ⟨rfl, rfl⟩
    · rw [taken_at_set_ne _ _ _ _ hj, keyAt_set_ne _ _ _ _ hj]
      exact ⟨rfl, rfl⟩

lemma wf_setValue (t : HashTable K V) (i : Nat) (v : V) (h : wf t)
    (hi : i < t.cells.length) : wf (setValue t i v) := by
  obtain ⟨hpos, hcnt, hnd, hpath⟩ := h
  obtain ⟨hlen, hsame⟩ := setValue_shape t i v hi
  obtain ⟨hnd2, hpath2⟩ := shape_preserves t.cells _ hlen hsame
  refine ⟨by rw [hlen]; exact hpos, ?_, hnd2 hnd, hpath2 hpath⟩
  show t.taken_count = countTaken (t.cells.set i
    ⟨(cellAt t.cells i).key, v, (cellAt t.cells i).taken⟩)
  rw [countTaken_set_same t.cells i
    ⟨(cellAt t.cells i).key, v, (cellAt t.cells i).taken⟩ hi rfl]
  exact hcnt

/-! Effect of writing a fresh pair into the slot found by the probe. -/

lemma writeNew_cells (t : HashTable K V) (i : Nat) (k : K) (v : V) :
    (writeNew t i k v).cells = t.cells.set i ⟨k, v, true⟩ := rfl

lemma taken_at_writeNew_self (cs : List (HashCell K V)) (i : Nat) (k : K) (v : V)
    (hi : i < cs.length) : taken_at (cs.set i ⟨k, v, true⟩) i = true := by
  rw [taken_at_set_self _ _ _ hi]

lemma keyAt_writeNew_self (cs : List (HashCell K V)) (i : Nat) (k : K) (v : V)
    (hi : i < cs.length) : keyAt (cs.set i ⟨k, v, true⟩) i = k := by
  rw [keyAt_set_self _ _ _ hi]

lemma valueAt_writeNew_self (cs : List (HashCell K V)) (i : Nat) (k : K) (v : V)
    (hi : i < cs.length) : valueAt (cs.set i ⟨k, v, true⟩) i = v := by
  rw [valueAt_set_self _ _ _ hi]

lemma wf_writeNew (t : HashTable K V) (k : K) (v : V) (h : wf t)
    (habs : ∀ i, i < t.cells.length →
      ¬(taken_at t.cells i = true ∧ keyAt t.cells i = k))
    (i : Nat)
    (hfree : probeFree t.cells (home t.cells k) t.cells.length = some i) :
    wf (writeNew t i k v) ∧ i < t.cells.length ∧ taken_at t.cells i = false := by
  obtain ⟨hpos, hcnt, hnd, hpath⟩ := h
  have hs : home t.cells k < t.cells.length := Nat.mod_lt _ hpos
  obtain ⟨D, hD, hiD, hu, hall⟩ :=
    probeFree_some t.cells hpos t.cells.length (home t.cells k) i hs hfree
  have hilt : i < t.cells.length := by
    rw [hiD]
    exact Nat.mod_lt _ hpos
  have hpd : probeDist (home t.cells k) i t.cells.length = D := by
    rw [hiD]
    exact probeDist_add hs hD
  refine ⟨⟨?_, ?_, ?_, ?_⟩, hilt, hu⟩
  · show 0 < (t.cells.set i _).length
    rw [List.length_set]
    exact hpos
  · show t.taken_count + 1 = countTaken (t.cells.set i ⟨k, v, true⟩)
    rw [countTaken_set_new t.cells i ⟨k, v, true⟩ hilt hu rfl, hcnt]
  · show nodupKeys (t.cells.set i ⟨k, v, true⟩)
    intro i1 hi1 i2 hi2 ht1 ht2 hk12
    rw [List.length_set] at hi1 hi2
    by_cases h1 : i1 = i
    · by_cases h2 : i2 = i
      · rw [h1, h2]
      · subst h1
        rw [keyAt_writeNew_self _ _ _ _ hilt] at hk12
        rw [keyAt_set_ne _ _ _ _ h2] at hk12
        rw [taken_at_set_ne _ _ _ _ h2] at ht2
        exact absurd ⟨ht2, hk12.symm⟩ (habs i2 hi2)
    · by_cases h2 : i2 = i
      · subst h2
        rw [keyAt_writeNew_self _ _ _ _ hilt] at hk12
        rw [keyAt_set_ne _ _ _ _ h1] at hk12
        rw [taken_at_set_ne _ _ _ _ h1] at ht1
        exact absurd ⟨ht1, hk12⟩ (habs i1 hi1)
      · rw [taken_at_set_ne _ _ _ _ h1] at ht1
        rw [taken_at_set_ne _ _ _ _ h2] at ht2
        rw [keyAt_set_ne _ _ _ _ h1, keyAt_set_ne _ _ _ _ h2] at hk12
        exact hnd i1 hi1 i2 hi2 ht1 ht2 hk12
  · show pathOk (t.cells.set i ⟨k, v, true⟩)
    intro i0 hi0 ht0 j hj
    rw [List.length_set] at hi0
    by_cases h0 : i0 = i
    · subst h0
      rw [keyAt_writeNew_self _ _ _ _ hilt] at hj ⊢
      simp only [home] at hj ⊢
      rw [List.length_set] at hj ⊢
      rw [hpd] at hj
      have hne : (hashOf k % t.cells.length + j) % t.cells.length ≠ i0 := by
        intro he
        have hj2 : j < t.cells.length := lt_trans hj hD
        have h2 := probeDist_add hs hj2
        rw [he, hpd] at h2
        omega
      rw [taken_at_set_ne _ _ _ _ hne]
      exact hall j hj
    · have ht0' : taken_at t.cells i0 = true := by
        rw [taken_at_set_ne _ _ _ _ h0] at ht0
        exact ht0
      have hkey0 : keyAt (t.cells.set i ⟨k, v, true⟩) i0 = keyAt t.cells i0 :=
        keyAt_set_ne _ _ _ _ h0
      rw [hkey0] at hj ⊢
      simp only [home] at hj ⊢
      rw [List.length_set] at hj ⊢
      have hp := hpath i0 hi0 ht0' j hj
      by_cases hx : (hashOf (keyAt t.cells i0) % t.cells.length + j) %
          t.cells.length = i
      · rw [hx, taken_at_writeNew_self _ _ _ _ hilt]
      · rw [taken_at_set_ne _ _ _ _ hx]
        exact hp

lemma get_index_some_exists (t : HashTable K V) (k : K) (w : V)
    (hg : get t k = some w) : ∃ i, get_index t k = some i := by
  unfold get at hg
  cases hgi : get_index t k with
  | none => rw [hgi] at hg; simp at hg
  | some i => exact ⟨i, rfl⟩

lemma get_writeNew_self (t : HashTable K V) (k : K) (v : V) (h : wf t)
    (habs : ∀ i, i < t.cells.length →
      ¬(taken_at t.cells i = true ∧ keyAt t.cells i = k))
    (i : Nat)
    (hfree : probeFree t.cells (home t.cells k) t.cells.length = some i) :
    get (writeNew t i k v) k = some v := by
  obtain ⟨hwf2, hilt, _⟩ := wf_writeNew t k v h habs i hfree
  have hlt2 : i < (writeNew t i k v).cells.length := by
    rw [writeNew_cells, List.length_set]
    exact hilt
  have hti : taken_at (writeNew t i k v).cells i = true :=
    taken_at_writeNew_self _ _ _ _ hilt
  have hki : keyAt (writeNew t i k v).cells i = k :=
    keyAt_writeNew_self _ _ _ _ hilt
  rw [get_some_of_index _ k i (get_index_finds _ k hwf2 i hlt2 hti hki)]
  show some (valueAt (t.cells.set i ⟨k, v, true⟩) i) = some v
  rw [valueAt_writeNew_self _ _ _ _ hilt]

lemma get_writeNew_other (t : HashTable K V) (k : K) (v : V) (h : wf t)
    (habs : ∀ i, i < t.cells.length →
      ¬(taken_at t.cells i = true ∧ keyAt t.cells i = k))
    (i : Nat)
    (hfree : probeFree t.cells (home t.cells k) t.cells.length = some i)
    (k2 : K) (hk2 : k2 ≠ k) :
    get (writeNew t i k v) k2 = get t k2 := by
  obtain ⟨hwf2, hilt, hu⟩ := wf_writeNew t k v h habs i hfree
  cases hg : get t k2 with
  | some w =>
    obtain ⟨i2, hgi⟩ := get_index_some_exists t k2 w hg
    obtain ⟨_, hi2, ht2, hk2e⟩ := get_index_some t k2 i2 hgi
    have hne : i2 ≠ i := by
      intro he
      rw [he] at ht2
      rw [ht2] at hu
      exact Bool.noConfusion hu
    have ht2' : taken_at (writeNew t i k v).cells i2 = true := by
      rw [writeNew_cells, taken_at_set_ne _ _ _ _ hne]
      exact ht2
    have hk2' : keyAt (writeNew t i k v).cells i2 = k2 := by
      rw [writeNew_cells, keyAt_set_ne _ _ _ _ hne]
      exact hk2e
    have hlt2 : i2 < (writeNew t i k v).cells.length := by
      rw [writeNew_cells, List.length_set]
      exact hi2
    rw [get_some_of_index _ k2 i2 (get_index_finds _ k2 hwf2 i2 hlt2 ht2' hk2')]
    rw [get_some_of_index t k2 i2 hgi] at hg
    rw [← hg]
    show some (valueAt (t.cells.set i ⟨k, v, true⟩) i2) = _
    rw [valueAt_set_ne _ _ _ _ hne]
  | none =>
    rw [(get_none_iff _ _).mpr]
    apply get_index_none_of_absent
    intro i3 hi3 hc
    rw [writeNew_cells, List.length_set] at hi3
    by_cases h3 : i3 = i
    · subst h3
      rw [writeNew_cells, keyAt_writeNew_self _ _ _ _ hilt] at hc
      exact hk2 hc.2.symm
    · rw [writeNew_cells, taken_at_set_ne _ _ _ _ h3,
        keyAt_set_ne _ _ _ _ h3] at hc
      exact absent_of_none t k2 h ((get_none_iff t k2).mp hg) i3 hi3 hc

lemma get_setValue_self (t : HashTable K V) (k : K) (v : V) (i : Nat)
    (h : wf t) (hgi : get_index t k = some i) :
    get (setValue t i v) k = some v := by
  obtain ⟨hpos, hi, ht, hk⟩ := get_index_some t k i hgi
  have hwf2 := wf_setValue t i v h hi
  obtain ⟨hlen, hsame⟩ := setValue_shape t i v hi
  have ht2 : taken_at (setValue t i v).cells i = true := by
    rw [(hsame i).1]
    exact ht
  have hk2 : keyAt (setValue t i v).cells i = k := by
    rw [(hsame i).2]
    exact hk
  rw [get_some_of_index _ k i (get_index_finds _ k hwf2 i (by rw [hlen]; exact hi) ht2 hk2)]
  show some (valueAt (t.cells.set i
    ⟨(cellAt t.cells i).key, v, (cellAt t.cells i).taken⟩) i) = some v
  rw [valueAt_set_self _ _ _ hi]

lemma get_setValue_other (t : HashTable K V) (v : V) (i : Nat) (k2 : K)
    (h : wf t) (hi : i < t.cells.length) (hk2 : keyAt t.cells i ≠ k2) :
    get (setValue t i v) k2 = get t k2 := by
  have hwf2 := wf_setValue t i v h hi
  obtain ⟨hlen, hsame⟩ := setValue_shape t i v hi
  cases hg : get t k2 with
  | some w =>
    obtain ⟨i2, hgi⟩ := get_index_some_exists t k2 w hg
    obtain ⟨_, hi2, ht2, hk2e⟩ := get_index_some t k2 i2 hgi
    have hne : i2 ≠ i := by
      intro he
      rw [he] at hk2e
      exact hk2 hk2e
    have ht2' : taken_at (setValue t i v).cells i2 = true := by
      rw [(hsame i2).1]
      exact ht2
    have hk2' : keyAt (setValue t i v).cells i2 = k2 := by
      rw [(hsame i2).2]
      exact hk2e
    rw [get_some_of_index _ k2 i2
      (get_index_finds _ k2 hwf2 i2 (by rw [hlen]; exact hi2) ht2' hk2')]
    rw [get_some_of_index t k2 i2 hgi] at hg
    rw [← hg]
    show some (valueAt (t.cells.set i
      ⟨(cellAt t.cells i).key, v, (cellAt t.cells i).taken⟩) i2) = _
    rw [valueAt_set_ne _ _ _ _ hne]
  | none =>
    rw [(get_none_iff _ _).mpr]
    apply get_index_none_of_absent
    intro i3 hi3 hc
    rw [hlen] at hi3
    rw [(hsame i3).1, (hsame i3).2] at hc
    exact absent_of_none t k2 h ((get_none_iff t k2).mp hg) i3 hi3 hc

/-! Characterization of the branches of `insert`. -/

lemma probeFree_of_not_full (t : HashTable K V) (k : K) (h : wf t)
    (hlt : t.taken_count < t.cells.length) :
    ∃ i, probeFree t.cells (home t.cells k) t.cells.length = some i := by
  have hcnt : countTaken t.cells < t.cells.length := by
    rw [← h.2.1]
    exact hlt
  obtain ⟨i0, hi0, hf0⟩ := exists_untaken t.cells hcnt
  have hs : home t.cells k < t.cells.length := Nat.mod_lt _ h.1
  have hex : ∃ D, D < t.cells.length ∧
      taken_at t.cells ((home t.cells k + D) % t.cells.length) = false := by
    refine ⟨probeDist (home t.cells k) i0 t.cells.length, probeDist_lt h.1 _ _, ?_⟩
    rw [add_probeDist hs hi0]
    exact hf0
  have hps := probeFree_complete t.cells h.1 t.cells.length (home t.cells k) hs hex
  cases hpf : probeFree t.cells (home t.cells k) t.cells.length with
  | none => rw [hpf] at hps; simp at hps
  | some i => exact ⟨i, rfl⟩

lemma insert_core_eq_writeNew (t : HashTable K V) (k : K) (v : V) (i : Nat)
    (hgi : get_index t k = none)
    (hfree : probeFree t.cells (home t.cells k) t.cells.length = some i) :
    insert_core t k v = writeNew t i k v := by
  unfold insert_core
  rw [hgi, hfree]

lemma insert_core_eq_setValue (t : HashTable K V) (k : K) (v : V) (i : Nat)
    (hgi : get_index t k = some i) :
    insert_core t k v = setValue t i v := by
  unfold insert_core
  rw [hgi]

lemma insert_core_new (t : HashTable K V) (k : K) (v : V) (h : wf t)
    (hgi : get_index t k = none) (hlt : t.taken_count < t.cells.length) :
    wf (insert_core t k v) ∧
      (insert_core t k v).cells.length = t.cells.length ∧
      (insert_core t k v).taken_count = t.taken_count + 1 ∧
      get (insert_core t k v) k = some v ∧
      ∀ k2, k2 ≠ k → get (insert_core t k v) k2 = get t k2 := by
  obtain ⟨i, hfree⟩ := probeFree_of_not_full t k h hlt
  have habs := absent_of_none t k h hgi
  rw [insert_core_eq_writeNew t k v i hgi hfree]
  refine ⟨(wf_writeNew t k v h habs i hfree).1, ?_, rfl,
    get_writeNew_self t k v h habs i hfree,
    fun k2 hk2 => get_writeNew_other t k v h habs i hfree k2 hk2⟩
  rw [writeNew_cells, List.length_set]

lemma insert_eq_core (t : HashTable K V) (k : K) (v : V)
    (hne : t.taken_count ≠ t.cells.length) :
    insert t k v = insert_core t k v := by
  unfold insert insert? insert_core
  cases hgi : get_index t k with
  | some i => rfl
  | none =>
    simp only [if_neg hne]
    cases hpf : probeFree t.cells (home t.cells k) t.cells.length with
    | some i => rfl
    | none => rfl

lemma insert_upsert (t : HashTable K V) (k : K) (v : V) (i : Nat)
    (hgi : get_index t k = some i) :
    insert t k v = setValue t i v ∧ insert? t k v = some (setValue t i v) := by
  unfold insert insert?
  rw [hgi]
  exact ⟨rfl, rfl⟩

lemma insert_grow (t : HashTable K V) (k : K) (v : V)
    (hgi : get_index t k = none) (hfull : t.taken_count = t.cells.length)
    (i : Nat)
    (hpf : probeFree (extend t).cells (home (extend t).cells k)
      (extend t).cells.length = some i) :
    insert t k v = writeNew (extend t) i k v ∧
      insert? t k v = some (writeNew (extend t) i k v) := by
  unfold insert insert?
  rw [hgi]
  simp only [if_pos hfull]
  rw [hpf]
  exact ⟨rfl, rfl⟩

lemma insert_nogrow (t : HashTable K V) (k : K) (v : V)
    (hgi : get_index t k = none) (hne : t.taken_count ≠ t.cells.length)
    (i : Nat)
    (hpf : probeFree t.cells (home t.cells k) t.cells.length = some i) :
    insert t k v = writeNew t i k v ∧
      insert? t k v = some (writeNew t i k v) := by
  unfold insert insert?
  rw [hgi]
  simp only [if_neg hne]
  rw [hpf]
  exact ⟨rfl, rfl⟩

/-! Invariant of the reinsertion loop of `extend`. -/

lemma growFold_cons (c : HashCell K V) (l : List (HashCell K V))
    (acc : HashTable K V) :
    growFold (c :: l) acc =
      growFold l (if c.taken then insert_core acc c.key c.value else acc) := rfl

lemma growFoldIns_cons (c : HashCell K V) (l : List (HashCell K V))
    (acc : HashTable K V) :
    growFoldIns (c :: l) acc =
      growFoldIns l (if c.taken then insert acc c.key c.value else acc) := rfl

lemma extend_fold (l : List (HashCell K V)) :
    ∀ acc : HashTable K V, wf acc →
      acc.taken_count + countTaken l ≤ acc.cells.length →
      List.Pairwise (fun a b => a.taken = true → b.taken = true → a.key ≠ b.key) l →
      (∀ c, c ∈ l → c.taken = true → get acc c.key = none) →
      wf (growFold l acc) ∧
        (growFold l acc).cells.length = acc.cells.length ∧
        (growFold l acc).taken_count = acc.taken_count + countTaken l ∧
        (∀ k2, get (growFold l acc) k2 = orO (assocTaken l k2) (get acc k2)) ∧
        growFoldIns l acc = growFold l acc := by
  induction l with
  | nil =>
    intro acc hwf _ _ _
    exact ⟨hwf, rfl, rfl, fun k2 => rfl, rfl⟩
  | cons c l ih =>
    intro acc hwf hbound hpw habs
    obtain ⟨hpwhead, hpwtail⟩ := List.pairwise_cons.mp hpw
    by_cases hc : c.taken = true
    · rw [countTaken_cons, if_pos hc] at hbound
      have hgi : get_index acc c.key = none :=
        (get_none_iff acc c.key).mp (habs c (List.mem_cons_self c l) hc)
      have hlt : acc.taken_count < acc.cells.length := by omega
      obtain ⟨hwf2, hlen2, hcnt2, hgetk, hgetother⟩ :=
        insert_core_new acc c.key c.value hwf hgi hlt
      have hbound2 : (insert_core acc c.key c.value).taken_count + countTaken l ≤
          (insert_core acc c.key c.value).cells.length := by
        rw [hlen2, hcnt2]
        omega
      have habs2 : ∀ c2, c2 ∈ l → c2.taken = true →
          get (insert_core acc c.key c.value) c2.key = none := by
        intro c2 hc2 ht2
        have hkne : c.key ≠ c2.key := hpwhead c2 hc2 hc ht2
        rw [hgetother c2.key (fun he => hkne he.symm)]
        exact habs c2 (List.mem_cons_of_mem c hc2) ht2
      obtain ⟨ihwf, ihlen, ihcnt, ihget, ihins⟩ :=
        ih (insert_core acc c.key c.value) hwf2 hbound2 hpwtail habs2
      rw [growFold_cons, if_pos hc]
      refine ⟨ihwf, ihlen.trans hlen2, ?_, ?_, ?_⟩
      · rw [ihcnt, hcnt2, countTaken_cons, if_pos hc]
        omega
      · intro k2
        rw [ihget k2]
        by_cases hk2 : k2 = c.key
        · have hhead : assocTaken (c :: l) k2 = some c.value := by
            unfold assocTaken
            rw [List.find?_cons_of_pos _ (by simp [hc, hk2])]
            rfl
          have htail : assocTaken l k2 = none := by
            apply assocTaken_none_of
            intro c2 hc2 hcp
            exact (hpwhead c2 hc2 hc hcp.1) (hcp.2.trans hk2).symm
          rw [hhead, htail]
          show get (insert_core acc c.key c.value) k2 = some c.value
          rw [hk2]
          exact hgetk
        · have hhead : assocTaken (c :: l) k2 = assocTaken l k2 := by
            unfold assocTaken
            rw [List.find?_cons_of_neg _ (by simp; intro _ he; exact hk2 he.symm)]
          rw [hhead, hgetother k2 hk2]
      · rw [growFoldIns_cons, if_pos hc,
          insert_eq_core acc c.key c.value (by omega)]
        exact ihins
    · rw [countTaken_cons, if_neg hc] at hbound
      have hbound2 : acc.taken_count + countTaken l ≤ acc.cells.length := by omega
      have habs2 : ∀ c2, c2 ∈ l → c2.taken = true → get acc c2.key = none :=
        fun c2 hc2 ht2 => habs c2 (List.mem_cons_of_mem c hc2) ht2
      obtain ⟨ihwf, ihlen, ihcnt, ihget, ihins⟩ := ih acc hwf hbound2 hpwtail habs2
      rw [growFold_cons, if_neg hc]
      refine ⟨ihwf, ihlen, ?_, ?_, ?_⟩
      · rw [ihcnt, countTaken_cons, if_neg hc]
        omega
      · intro k2
        rw [ihget k2]
        have hhead : assocTaken (c :: l) k2 = assocTaken l k2 := by
          unfold assocTaken
          rw [List.find?_cons_of_neg _ (by simp [bool_eq_false hc])]
        rw [hhead]
      · rw [growFoldIns_cons, if_neg hc]
        exact ihins

lemma nodup_pairwise (cs : List (HashCell K V)) (hnd : nodupKeys cs) :
    List.Pairwise (fun a b => a.taken = true → b.taken = true → a.key ≠ b.key) cs := by
  rw [List.pairwise_iff_get]
  intro i j hij ht1 ht2 hk
  have e1 : cellAt cs i.val = cs.get i := cellAt_eq_get cs i.val i.isLt
  have e2 : cellAt cs j.val = cs.get j := cellAt_eq_get cs j.val j.isLt
  have hiv := hnd i.val i.isLt j.val j.isLt
    (by show (cellAt cs i.val).taken = true; rw [e1]; exact ht1)
    (by show (cellAt cs j.val).taken = true; rw [e2]; exact ht2)
    (by show (cellAt cs i.val).key = (cellAt cs j.val).key; rw [e1, e2, hk])
  exact absurd hiv (Nat.ne_of_lt hij)

lemma with_capacity_count (m : Nat) :
    (with_capacity m : HashTable K V).taken_count = 0 := rfl

lemma with_capacity_length (m : Nat) :
    (with_capacity m : HashTable K V).cells.length = m := by
  rw [with_capacity_cells, List.length_replicate]

lemma extend_spec (t : HashTable K V) (h : wf t) :
    wf (extend t) ∧
      (extend t).cells.length = t.cells.length * 2 + 1 ∧
      (extend t).taken_count = countTaken t.cells ∧
      (∀ k, get (extend t) k = get t k) ∧
      extend t = growFoldIns t.cells (with_capacity (t.cells.length * 2 + 1)) := by
  have hm : 0 < t.cells.length * 2 + 1 := by omega
  have hwf0 : wf (with_capacity (t.cells.length * 2 + 1) : HashTable K V) :=
    wf_with_capacity _ hm
  have hbound : (with_capacity (t.cells.length * 2 + 1) :
      HashTable K V).taken_count + countTaken t.cells ≤
      (with_capacity (t.cells.length * 2 + 1) : HashTable K V).cells.length := by
    rw [with_capacity_count, with_capacity_length]
    have := countTaken_le t.cells
    omega
  have hpw := nodup_pairwise t.cells h.2.2.1
  have habs : ∀ c, c ∈ t.cells → c.taken = true →
      get (with_capacity (t.cells.length * 2 + 1) : HashTable K V) c.key = none :=
    fun c _ _ => get_with_capacity _ c.key
  obtain ⟨ha, hb, hcn, hd, he⟩ :=
    extend_fold t.cells (with_capacity (t.cells.length * 2 + 1)) hwf0 hbound hpw habs
  refine ⟨ha, ?_, ?_, ?_, he.symm⟩
  · rw [show (extend t).cells.length =
      (growFold t.cells (with_capacity (t.cells.length * 2 + 1))).cells.length
      from rfl, hb, with_capacity_length]
  · rw [show (extend t).taken_count =
      (growFold t.cells (with_capacity (t.cells.length * 2 + 1))).taken_count
      from rfl, hcn, with_capacity_count]
    omega
  · intro k
    rw [show get (extend t) k =
      get (growFold t.cells (with_capacity (t.cells.length * 2 + 1))) k from rfl,
      hd k, get_with_capacity]
    have hor : orO (assocTaken t.cells k) none = assocTaken t.cells k := by
      cases assocTaken t.cells k <;> rfl
    rw [hor, ← get_eq_assoc t k h]

/-- Master specification of one `insert` on a well-formed table. -/
lemma insert_spec (t : HashTable K V) (k : K) (v : V) (h : wf t) :
    wf (insert t k v) ∧
      (insert? t k v).isSome = true ∧
      get (insert t k v) k = some v ∧
      (∀ k2, k2 ≠ k → get (insert t k v) k2 = get t k2) ∧
      ((insert t k v).cells.length =
        if get_index t k = none ∧ t.taken_count = t.cells.length
        then t.cells.length * 2 + 1 else t.cells.length) ∧
      ((insert t k v).taken_count =
        if get_index t k = none then t.taken_count + 1 else t.taken_count) := by
  cases hgi : get_index t k with
  | some i =>
    obtain ⟨hs1, hs2⟩ := insert_upsert t k v i hgi
    have hi : i < t.cells.length := (get_index_some t k i hgi).2.1
    refine ⟨?_, ?_, ?_, ?_, ?_, ?_⟩
    · rw [hs1]
      exact wf_setValue t i v h hi
    · rw [hs2]
      rfl
    · rw [hs1]
      exact get_setValue_self t k v i h hgi
    · intro k2 hk2
      rw [hs1]
      exact get_setValue_other t v i k2 h hi
        (by rw [(get_index_some t k i hgi).2.2.2]; exact fun he => hk2 he.symm)
    · rw [hs1, if_neg (by simp [hgi]), (setValue_shape t i v hi).1]
    · rw [hs1, if_neg (by simp [hgi])]
      rfl
  | none =>
    by_cases hfull : t.taken_count = t.cells.length
    · obtain ⟨hwfe, hlene, hcnte, hgete, _⟩ := extend_spec t h
      have hlt : (extend t).taken_count < (extend t).cells.length := by
        rw [hlene, hcnte]
        have := countTaken_le t.cells
        omega
      have hgie : get_index (extend t) k = none := by
        rw [← get_none_iff]
        rw [hgete k]
        rw [get_none_iff]
        exact hgi
      obtain ⟨i, hpf⟩ := probeFree_of_not_full (extend t) k hwfe hlt
      obtain ⟨hs1, hs2⟩ := insert_grow t k v hgi hfull i hpf
      have habse := absent_of_none (extend t) k hwfe hgie
      refine ⟨?_, ?_, ?_, ?_, ?_, ?_⟩
      · rw [hs1]
        exact (wf_writeNew (extend t) k v hwfe habse i hpf).1
      · rw [hs2]
        rfl
      · rw [hs1]
        exact get_writeNew_self (extend t) k v hwfe habse i hpf
      · intro k2 hk2
        rw [hs1, get_writeNew_other (extend t) k v hwfe habse i hpf k2 hk2,
          hgete k2]
      · rw [hs1, if_pos ⟨rfl, hfull⟩]
        show ((extend t).cells.set i ⟨k, v, true⟩).length = _
        rw [List.length_set, hlene]
      · rw [hs1, if_pos rfl]
        show (extend t).taken_count + 1 = t.taken_count + 1
        rw [hcnte, h.2.1]
    · have hle : t.taken_count ≤ t.cells.length := by
        rw [h.2.1]
        exact countTaken_le t.cells
      have hlt : t.taken_count < t.cells.length := lt_of_le_of_ne hle hfull
      obtain ⟨i, hpf⟩ := probeFree_of_not_full t k h hlt
      obtain ⟨hs1, hs2⟩ := insert_nogrow t k v hgi hfull i hpf
      have habs := absent_of_none t k h hgi
      refine ⟨?_, ?_, ?_, ?_, ?_, ?_⟩
      · rw [hs1]
        exact (wf_writeNew t k v h habs i hpf).1
      · rw [hs2]
        rfl
      · rw [hs1]
        exact get_writeNew_self t k v h habs i hpf
      · intro k2 hk2
        rw [hs1]
        exact get_writeNew_other t k v h habs i hpf k2 hk2
      · rw [hs1, if_neg (fun hcon => hfull hcon.2)]
        show (t.cells.set i ⟨k, v, true⟩).length = _
        rw [List.length_set]
      · rw [hs1, if_pos rfl]
        rfl

/-! Derived facts used by the claim theorems. -/

lemma get_mut_eq_get (t : HashTable K V) (k : K) : get_mut t k = get t k := rfl

lemma insertList_cons (t : HashTable K V) (p : K × V) (ps : List (K × V)) :
    insertList t (p :: ps) = insertList (insert t p.1 p.2) ps := rfl

lemma insertList_wf (ps : List (K × V)) :
    ∀ t : HashTable K V, wf t → wf (insertList t ps) := by
  induction ps with
  | nil => intro t h; exact h
  | cons p ps ih =>
    intro t h
    rw [insertList_cons]
    exact ih _ (insert_spec t p.1 p.2 h).1

lemma insertList_get_absent (k : K) (ps : List (K × V)) :
    ∀ t : HashTable K V, wf t → (∀ p, p ∈ ps → p.1 ≠ k) →
      get (insertList t ps) k = get t k := by
  induction ps with
  | nil => intro t _ _; rfl
  | cons p ps ih =>
    intro t h hne
    rw [insertList_cons, ih (insert t p.1 p.2) (insert_spec t p.1 p.2 h).1
      (fun q hq => hne q (List.mem_cons_of_mem p hq))]
    exact (insert_spec t p.1 p.2 h).2.2.2.1 k
      (Ne.symm (hne p (List.mem_cons_self p ps)))

lemma insertList_get_mem (ps : List (K × V)) :
    ∀ t : HashTable K V, wf t →
      List.Pairwise (fun a b => a.1 ≠ b.1) ps →
      ∀ p, p ∈ ps → get (insertList t ps) p.1 = some p.2 := by
  induction ps with
  | nil => intro t _ _ p hp; simp at hp
  | cons q ps ih =>
    intro t h hpw p hp
    obtain ⟨hhead, htail⟩ := List.pairwise_cons.mp hpw
    rw [insertList_cons]
    rcases List.mem_cons.mp hp with rfl | hmem
    · rw [insertList_get_absent p.1 ps (insert t p.1 p.2)
        (insert_spec t p.1 p.2 h).1 (fun r hr => Ne.symm (hhead r hr))]
      exact (insert_spec t p.1 p.2 h).2.2.1
    · exact ih (insert t q.1 q.2) (insert_spec t q.1 q.2 h).1 htail p hmem

lemma reachable_wf (t : HashTable K V) (h : Reachable t) : wf t := by
  induction h with
  | mk_new => exact wf_with_capacity 61 (by omega)
  | mk_cap n hn => exact wf_with_capacity n hn
  | ins t k v _ ih => exact (insert_spec t k v ih).1
  | mutval t k v i _ hgi ih =>
    exact wf_setValue t i v ih (get_index_some t k i hgi).2.1

lemma djb2Step_eq (a c : Nat) : djb2Step a c = (a * 33 + c) % W := by
  unfold djb2Step
  have h32 : a <<< 5 = a * 32 := by
    rw [Nat.shiftLeft_eq]
  rw [h32, Nat.mod_add_mod, Nat.add_assoc, Nat.mod_add_mod]
  congr 1
  omega

lemma djb2_eq_spec (bytes : List Nat) :
    ∀ a : Nat, bytes.foldl djb2Step a =
      bytes.foldl (fun h c => (h * 33 + c) % W) a := by
  induction bytes with
  | nil => intro a; rfl
  | cons b bs ih =>
    intro a
    rw [List.foldl_cons, List.foldl_cons, djb2Step_eq]
    exact ih _

/-! The claim theorems. -/

/-- C1: retrieval completeness. For every table constructed with positive
capacity and every sequence of pairwise-distinct keys inserted with their
values, after all insertions `get` returns the inserted value of each key,
regardless of any growth events triggered in between; and growth preserves
every previously retrievable key/value pair with identical value. -/
theorem C1_retrieval_completeness (n : Nat) (hn : 0 < n) (ps : List (K × V))
    (hd : List.Pairwise (fun a b => a.1 ≠ b.1) ps) (p : K × V) (hp : p ∈ ps)
    (t : HashTable K V) (k : K) (hwf : wf t) :
    get (insertList (with_capacity n) ps) p.1 = some p.2 ∧
      get (extend t) k = get t k :=
  ⟨insertList_get_mem ps (with_capacity n) (wf_with_capacity n hn) hd p hp,
    (extend_spec t hwf).2.2.2.1 k⟩

/-- C2: upsert semantics. After `insert t k v1` then `insert t k v2`,
`get` at `k` returns `some v2`, and the second insert changes neither the
count nor the capacity (so it triggers no growth), even when the table is
full at that moment. -/
theorem C2_upsert (t : HashTable K V) (k : K) (v1 v2 : V) (h : wf t) :
    get (insert (insert t k v1) k v2) k = some v2 ∧
      (insert (insert t k v1) k v2).taken_count = (insert t k v1).taken_count ∧
      (insert (insert t k v1) k v2).cells.length = (insert t k v1).cells.length := by
  have h1 := insert_spec t k v1 h
  obtain ⟨i, hgi⟩ := get_index_some_exists (insert t k v1) k v1 h1.2.2.1
  have h2 := insert_spec (insert t k v1) k v2 h1.1
  refine ⟨h2.2.2.1, ?_, ?_⟩
  · rw [h2.2.2.2.2.2, if_neg (by simp [hgi])]
  · rw [h2.2.2.2.2.1, if_neg (by simp [hgi])]

/-- C3: growth trigger and capacity formula. Insert grows the backing store
exactly when the key is absent and the table is full; growth produces a
store of capacity `2 * old + 1`, odd and strictly greater than the old
capacity, whose count is rebuilt from zero by reinserting every occupied
slot in slot-array order through the ordinary insert algorithm. -/
theorem C3_growth_trigger (t : HashTable K V) (k : K) (v : V) (h : wf t) :
    ((insert t k v).cells.length ≠ t.cells.length ↔
      (get t k = none ∧ t.taken_count = t.cells.length)) ∧
      ((insert t k v).cells.length =
        if get_index t k = none ∧ t.taken_count = t.cells.length
        then 2 * t.cells.length + 1 else t.cells.length) ∧
      (extend t).cells.length = 2 * t.cells.length + 1 ∧
      (extend t).cells.length % 2 = 1 ∧
      t.cells.length < (extend t).cells.length ∧
      (extend t).taken_count = countTaken t.cells ∧
      extend t = growFoldIns t.cells (with_capacity (t.cells.length * 2 + 1)) := by
  obtain ⟨hwfe, hlene, hcnte, hgete, hins⟩ := extend_spec t h
  have hlen := (insert_spec t k v h).2.2.2.2.1
  have hgiff : get t k = none ↔ get_index t k = none := get_none_iff t k
  have hpos := h.1
  refine ⟨⟨?_, ?_⟩, ?_, by rw [hlene]; omega, by rw [hlene]; omega,
    by rw [hlene]; omega, hcnte, hins⟩
  · intro hne
    by_contra hcon
    have hcond : ¬(get_index t k = none ∧ t.taken_count = t.cells.length) :=
      fun hc => hcon ⟨hgiff.mpr hc.1, hc.2⟩
    rw [if_neg hcond] at hlen
    exact hne hlen
  · intro hc
    rw [if_pos ⟨hgiff.mp hc.1, hc.2⟩] at hlen
    rw [hlen]
    omega
  · by_cases hcond : get_index t k = none ∧ t.taken_count = t.cells.length
    · rw [if_pos hcond]
      rw [if_pos hcond] at hlen
      rw [hlen]
      omega
    · rw [if_neg hcond]
      rw [if_neg hcond] at hlen
      exact hlen

/-- C4: table invariants. Every table reachable through the public
operations (`new`, `with_capacity` with positive capacity, `insert`, and
value mutation through `get_mut`; `get` mutates nothing) satisfies
`0 ≤ size ≤ capacity`, `size` equals the number of occupied slots, and no
two distinct occupied slots hold the same key. -/
theorem C4_invariants (t : HashTable K V) (h : Reachable t) :
    0 ≤ t.taken_count ∧ t.taken_count ≤ t.cells.length ∧
      t.taken_count = countTaken t.cells ∧ nodupKeys t.cells := by
  have hwf := reachable_wf t h
  exact ⟨Nat.zero_le _, by rw [hwf.2.1]; exact countTaken_le t.cells,
    hwf.2.1, hwf.2.2.1⟩

/-- C5 counterexample: on a zero-capacity table `insert` does not loop
indefinitely; it halts at once with the Rust remainder-by-zero abort raised
by `key.hash() % self.cells.len()` inside `get_index`, which `insert`
reaches through `get_mut` before any probe loop. -/
theorem C5_counterexample :
    insertChecked (with_capacity 0 : HashTable Nat Nat) 0 0 =
      Except.error () := rfl

/-- C5 amended: every call to `insert` on a table constructed with
`with_capacity 0` halts immediately with a fatal remainder-by-zero abort (a
precondition violation, not a recoverable error), rather than looping. -/
theorem C5_amended (k : K) (v : V) :
    insertChecked (with_capacity 0 : HashTable K V) k v = Except.error () := by
  unfold insertChecked
  rw [if_pos (with_capacity_length 0)]

/-- C6: absence. For every table built with positive capacity and any
sequence of insertions, a key never inserted resolves to `none` under both
`get` and `get_mut`; absence is signalled through the optional result, and
the total functions `get` and `get_mut` raise nothing. -/
theorem C6_absence (n : Nat) (hn : 0 < n) (ps : List (K × V)) (k : K)
    (hk : ∀ p, p ∈ ps → p.1 ≠ k) :
    get (insertList (with_capacity n) ps) k = none ∧
      get_mut (insertList (with_capacity n) ps) k = none := by
  have hnone : get (insertList (with_capacity n) ps) k = none := by
    rw [insertList_get_absent k ps (with_capacity n) (wf_with_capacity n hn) hk,
      get_with_capacity]
  exact ⟨hnone, by rw [get_mut_eq_get]; exact hnone⟩

/-- C7: the string digest follows the djb2 reference definition, starting
the accumulator at 5381 and mapping each byte `b` through
`acc = (acc * 33 + b) mod 2 ^ 64` with unsigned wraparound; the integer
digest is the identity function. -/
theorem C7_digest (bytes : List Nat) (m : Nat) :
    djb2 bytes = bytes.foldl (fun a b => (a * 33 + b) % 2 ^ 64) 5381 ∧
      hashOf m = m := by
  constructor
  · unfold djb2
    rw [djb2_eq_spec bytes 5381]
    rfl
  · rfl

/-- C8: lookup is bounded and total. The probe of `get_index` runs for at
most `capacity` steps from `hash k % capacity`; when it meets an unoccupied
slot before any match it reports absent, and on a completely full table of
non-matching keys the full cycle ends with `none` instead of looping. -/
theorem C8_lookup_bounded (t : HashTable K V) (k : K)
    (h0 : 0 < t.cells.length) :
    ((∀ i, i < t.cells.length → taken_at t.cells i = true) →
      (∀ i, i < t.cells.length → ¬(keyAt t.cells i = k)) →
      get t k = none ∧ get_mut t k = none) ∧
      (∀ D, D < t.cells.length →
        (∀ j, j < D →
          taken_at t.cells ((home t.cells k + j) % t.cells.length) = true ∧
          ¬(keyAt t.cells ((home t.cells k + j) % t.cells.length) = k)) →
        taken_at t.cells ((home t.cells k + D) % t.cells.length) = false →
        get t k = none) := by
  constructor
  · intro h1 h2
    have hnone : get_index t k = none := by
      unfold get_index
      exact get_index_loop_full t.cells k h1 h2 t.cells.length _ (Nat.mod_lt _ h0)
    have hg : get t k = none := (get_none_iff t k).mpr hnone
    exact ⟨hg, by rw [get_mut_eq_get]; exact hg⟩
  · intro D hD hpre hu
    apply (get_none_iff t k).mpr
    unfold get_index
    exact get_index_loop_empty t.cells k h0 D t.cells.length _
      (Nat.mod_lt _ h0) hD hpre hu

/-- C9: insert is total on well-formed tables. The bounded model `insert?`
always produces a result (the unbounded source probe loop terminates), and
growth leaves the count strictly below the new capacity — when the table was
full, growth leaves the count at exactly the old capacity, strictly less
than the new one. -/
theorem C9_insert_total (t : HashTable K V) (k : K) (v : V) (h : wf t) :
    (insert? t k v).isSome = true ∧
      (extend t).taken_count < (extend t).cells.length ∧
      (t.taken_count = t.cells.length →
        (extend t).taken_count = t.cells.length) := by
  obtain ⟨_, hlene, hcnte, _, _⟩ := extend_spec t h
  refine ⟨(insert_spec t k v h).2.1, ?_, ?_⟩
  · rw [hlene, hcnte]
    have := countTaken_le t.cells
    omega
  · intro hfull
    rw [hcnte, ← h.2.1]
    exact hfull

/-- C10: frame property of a non-growth insert of a new key. Exactly one
previously unoccupied slot is written with the new key, value and occupancy
flag, the count increases by one, and every other slot and the capacity are
unchanged. -/
theorem C10_insert_frame (t : HashTable K V) (k : K) (v : V) (h : wf t)
    (habs : ∀ i, i < t.cells.length →
      ¬(taken_at t.cells i = true ∧ keyAt t.cells i = k))
    (hlt : t.taken_count < t.cells.length) :
    ∃ i, i < t.cells.length ∧ taken_at t.cells i = false ∧
      insert t k v = ⟨t.cells.set i ⟨k, v, true⟩, t.taken_count + 1⟩ ∧
      (insert t k v).cells.length = t.cells.length ∧
      (insert t k v).taken_count = t.taken_count + 1 ∧
      ∀ j, j < t.cells.length → j ≠ i →
        cellAt (insert t k v).cells j = cellAt t.cells j := by
  have hgi : get_index t k = none := get_index_none_of_absent t k habs
  obtain ⟨i, hpf⟩ := probeFree_of_not_full t k h hlt
  obtain ⟨hs1, _⟩ := insert_nogrow t k v hgi (by omega) i hpf
  obtain ⟨_, hilt, hu⟩ := wf_writeNew t k v h habs i hpf
  refine ⟨i, hilt, hu, hs1, ?_, ?_, ?_⟩
  · rw [hs1]
    show (t.cells.set i _).length = _
    rw [List.length_set]
  · rw [hs1]
    rfl
  · intro j hj hne
    rw [hs1]
    show cellAt (t.cells.set i ⟨k, v, true⟩) j = _
    rw [cellAt_set_ne _ _ _ _ hne]

/-! Concrete witnesses evaluating the claim theorems. -/

/-- Witness for C1 at capacity 1 with the single pair `(0, 5)`. -/
theorem C1_retrieval_completeness_witness :
    (0 : Nat) < 1 ∧
      List.Pairwise (fun a b => a.1 ≠ b.1) [((0 : Nat), (5 : Nat))] ∧
      ((0 : Nat), (5 : Nat)) ∈ [((0 : Nat), (5 : Nat))] ∧
      wf (with_capacity 1 : HashTable Nat Nat) ∧
      (get (insertList (with_capacity 1 : HashTable Nat Nat) [(0, 5)]) 0 =
          some 5 ∧
        get (extend (with_capacity 1 : HashTable Nat Nat)) 0 =
          get (with_capacity 1 : HashTable Nat Nat) 0) :=
  ⟨by decide, by decide, by decide, by decide,
    C1_retrieval_completeness 1 (by decide) [(0, 5)] (by decide) (0, 5)
      (by decide) (with_capacity 1) 0 (by decide)⟩

/-- Witness for C2 on a full one-slot table: the second insert of the same
key overwrites in place, with count and capacity unchanged. -/
theorem C2_upsert_witness :
    wf (with_capacity 1 : HashTable Nat Nat) ∧
      (get (insert (insert (with_capacity 1 : HashTable Nat Nat) 0 1) 0 2) 0 =
          some 2 ∧
        (insert (insert (with_capacity 1 : HashTable Nat Nat) 0 1) 0 2).taken_count =
          (insert (with_capacity 1 : HashTable Nat Nat) 0 1).taken_count ∧
        (insert (insert (with_capacity 1 : HashTable Nat Nat) 0 1) 0 2).cells.length =
          (insert (with_capacity 1 : HashTable Nat Nat) 0 1).cells.length) :=
  ⟨by decide, C2_upsert (with_capacity 1) 0 1 2 (by decide)⟩

/-- Witness for C3 on a full one-slot table receiving a fresh key. -/
theorem C3_growth_trigger_witness :
    wf (insert (with_capacity 1 : HashTable Nat Nat) 1 1) ∧
      (((insert (insert (with_capacity 1 : HashTable Nat Nat) 1 1) 0 7).cells.length ≠
          (insert (with_capacity 1 : HashTable Nat Nat) 1 1).cells.length ↔
        (get (insert (with_capacity 1 : HashTable Nat Nat) 1 1) 0 = none ∧
          (insert (with_capacity 1 : HashTable Nat Nat) 1 1).taken_count =
            (insert (with_capacity 1 : HashTable Nat Nat) 1 1).cells.length)) ∧
        ((insert (insert (with_capacity 1 : HashTable Nat Nat) 1 1) 0 7).cells.length =
          if get_index (insert (with_capacity 1 : HashTable Nat Nat) 1 1) 0 = none ∧
            (insert (with_capacity 1 : HashTable Nat Nat) 1 1).taken_count =
              (insert (with_capacity 1 : HashTable Nat Nat) 1 1).cells.length
          then 2 * (insert (with_capacity 1 : HashTable Nat Nat) 1 1).cells.length + 1
          else (insert (with_capacity 1 : HashTable Nat Nat) 1 1).cells.length) ∧
        (extend (insert (with_capacity 1 : HashTable Nat Nat) 1 1)).cells.length =
          2 * (insert (with_capacity 1 : HashTable Nat Nat) 1 1).cells.length + 1 ∧
        (extend (insert (with_capacity 1 : HashTable Nat Nat) 1 1)).cells.length % 2 = 1 ∧
        (insert (with_capacity 1 : HashTable Nat Nat) 1 1).cells.length <
          (extend (insert (with_capacity 1 : HashTable Nat Nat) 1 1)).cells.length ∧
        (extend (insert (with_capacity 1 : HashTable Nat Nat) 1 1)).taken_count =
          countTaken (insert (with_capacity 1 : HashTable Nat Nat) 1 1).cells ∧
        extend (insert (with_capacity 1 : HashTable Nat Nat) 1 1) =
          growFoldIns (insert (with_capacity 1 : HashTable Nat Nat) 1 1).cells
            (with_capacity
              ((insert (with_capacity 1 : HashTable Nat Nat) 1 1).cells.length * 2 + 1))) :=
  ⟨by decide, C3_growth_trigger (insert (with_capacity 1) 1 1) 0 7 (by decide)⟩

/-- Witness for C4 on a freshly constructed table of capacity 3. -/
theorem C4_invariants_witness :
    0 ≤ (with_capacity 3 : HashTable Nat Nat).taken_count ∧
      (with_capacity 3 : HashTable Nat Nat).taken_count ≤
        (with_capacity 3 : HashTable Nat Nat).cells.length ∧
      (with_capacity 3 : HashTable Nat Nat).taken_count =
        countTaken (with_capacity 3 : HashTable Nat Nat).cells ∧
      nodupKeys (with_capacity 3 : HashTable Nat Nat).cells :=
  C4_invariants (with_capacity 3) (Reachable.mk_cap 3 (by decide))

/-- Witness for C6: the key 0 was never inserted, so both lookups miss. -/
theorem C6_absence_witness :
    (0 : Nat) < 1 ∧ (∀ p, p ∈ [((1 : Nat), (7 : Nat))] → p.1 ≠ 0) ∧
      (get (insertList (with_capacity 1 : HashTable Nat Nat) [(1, 7)]) 0 = none ∧
        get_mut (insertList (with_capacity 1 : HashTable Nat Nat) [(1, 7)]) 0 =
          none) :=
  ⟨by decide, by decide, C6_absence 1 (by decide) [(1, 7)] 0 (by decide)⟩

/-- Witness for C8: a completely full one-slot table of a non-matching key
reports absent, and a table whose home slot for the key is empty reports
absent at once. -/
theorem C8_lookup_bounded_witness :
    (0 : Nat) < (insert (with_capacity 1 : HashTable Nat Nat) 1 1).cells.length ∧
      (get (insert (with_capacity 1 : HashTable Nat Nat) 1 1) 0 = none ∧
        get_mut (insert (with_capacity 1 : HashTable Nat Nat) 1 1) 0 = none) ∧
      get (with_capacity 2 : HashTable Nat Nat) 5 = none :=
  ⟨by decide,
    (C8_lookup_bounded (insert (with_capacity 1) 1 1) 0 (by decide)).1
      (by decide) (by decide),
    (C8_lookup_bounded (with_capacity 2) 5 (by decide)).2 0 (by decide)
      (by decide) (by decide)⟩

/-- Witness for C9 on a table of capacity 1. -/
theorem C9_insert_total_witness :
    wf (with_capacity 1 : HashTable Nat Nat) ∧
      ((insert? (with_capacity 1 : HashTable Nat Nat) 0 0).isSome = true ∧
        (extend (with_capacity 1 : HashTable Nat Nat)).taken_count <
          (extend (with_capacity 1 : HashTable Nat Nat)).cells.length ∧
        ((with_capacity 1 : HashTable Nat Nat).taken_count =
            (with_capacity 1 : HashTable Nat Nat).cells.length →
          (extend (with_capacity 1 : HashTable Nat Nat)).taken_count =
            (with_capacity 1 : HashTable Nat Nat).cells.length)) :=
  ⟨by decide, C9_insert_total (with_capacity 1) 0 0 (by decide)⟩

/-- Witness for C10: inserting the fresh key 1 into an empty two-slot table
writes exactly one slot and leaves the other untouched. -/
theorem C10_insert_frame_witness :
    wf (with_capacity 2 : HashTable Nat Nat) ∧
      (∀ i, i < (with_capacity 2 : HashTable Nat Nat).cells.length →
        ¬(taken_at (with_capacity 2 : HashTable Nat Nat).cells i = true ∧
          keyAt (with_capacity 2 : HashTable Nat Nat).cells i = 1)) ∧
      (with_capacity 2 : HashTable Nat Nat).taken_count <
        (with_capacity 2 : HashTable Nat Nat).cells.length ∧
      (∃ i, i < (with_capacity 2 : HashTable Nat Nat).cells.length ∧
        taken_at (with_capacity 2 : HashTable Nat Nat).cells i = false ∧
        insert (with_capacity 2 : HashTable Nat Nat) 1 9 =
          ⟨(with_capacity 2 : HashTable Nat Nat).cells.set i ⟨1, 9, true⟩,
            (with_capacity 2 : HashTable Nat Nat).taken_count + 1⟩ ∧
        (insert (with_capacity 2 : HashTable Nat Nat) 1 9).cells.length =
          (with_capacity 2 : HashTable Nat Nat).cells.length ∧
        (insert (with_capacity 2 : HashTable Nat Nat) 1 9).taken_count =
          (with_capacity 2 : HashTable Nat Nat).taken_count + 1 ∧
        ∀ j, j < (with_capacity 2 : HashTable Nat Nat).cells.length → j ≠ i →
          cellAt (insert (with_capacity 2 : HashTable Nat Nat) 1 9).cells j =
            cellAt (with_capacity 2 : HashTable Nat Nat).cells j) :=
  ⟨by decide, by decide, by decide,
    C10_insert_frame (with_capacity 2) 1 9 (by decide) (by decide) (by decide)⟩

end RHash
